import Mathlib

/-!
Shallow embedding of `src/libafl/src/corpus/inmemory.rs`.

The file defines an in-memory corpus of testcases.  Two backing strategies
exist for `TestcaseStorage`, selected by the `corpus_btreemap` cargo feature:

* the default (HashMap) strategy keeps, per entry, explicit `prev`/`next`
  neighbour identifiers plus `first_idx`/`last_idx` sentinels;
* the `corpus_btreemap` strategy keeps a key-ordered map and answers
  `next`/`prev` by bounded range queries.

We embed both.  The HashMap is modelled as an association list whose
iteration order is never observed (every observable operation of the HashMap
strategy goes through key lookup, the sentinels or the per-entry links), so
the association-list representation is faithful.  The BTreeMap is modelled
as an association list kept sorted by key (insertion happens in key order);
its range queries are modelled by filtering on the key bound, which agrees
with `BTreeMap::range` on sorted lists.

`InMemoryCorpus` wraps a storage together with the optional `current`
cursor.  Note that `InMemoryCorpus::remove` (line 246) operates directly on
`self.entries.map` and does not call `TestcaseStorage::remove`; the
embedding reproduces this faithfully.
-/

namespace InMemory

/-- `CorpusId` wraps a `usize`; we model it as `Nat` (the code only ever
increments the progressive index, never wraps). -/
abbrev CorpusId := Nat

/-- `Error` at this layer: only `Error::key_not_found` is ever constructed
by `inmemory.rs`. -/
inductive Error where
  | keyNotFound (idx : CorpusId)
deriving Repr, DecidableEq

/-- `TestcaseStorageItem<I>`: the stored testcase plus the doubly-linked
neighbour identifiers (HashMap strategy only). -/
structure TestcaseStorageItem (I : Type) where
  testcase : I
  prev : Option CorpusId
  next : Option CorpusId
deriving Repr, DecidableEq

instance {ε α : Type} [DecidableEq ε] [DecidableEq α] : DecidableEq (Except ε α)
  | Except.ok a, Except.ok b =>
    if h : a = b then Decidable.isTrue (by rw [h])
    else Decidable.isFalse (by intro he; cases he; exact h rfl)
  | Except.ok _, Except.error _ => Decidable.isFalse (by intro h; cases h)
  | Except.error _, Except.ok _ => Decidable.isFalse (by intro h; cases h)
  | Except.error e, Except.error f =>
    if h : e = f then Decidable.isTrue (by rw [h])
    else Decidable.isFalse (by intro he; cases he; exact h rfl)

/-! ### Association-list map primitives

`mapGet`/`mapInsert`/`mapUpdate`/`mapRemove` model the key-indexed map
operations used by the source (`get`, `insert`, `get_mut` followed by a
field write, `remove`). -/

def mapGet {α : Type} (m : List (CorpusId × α)) (k : CorpusId) : Option α :=
  (m.find? (fun p => p.1 == k)).map Prod.snd

def mapInsert {α : Type} (m : List (CorpusId × α)) (k : CorpusId) (v : α) :
    List (CorpusId × α) :=
  if (m.find? (fun p => p.1 == k)).isSome then
    m.map (fun p => if p.1 == k then (k, v) else p)
  else
    m ++ [(k, v)]

def mapUpdate {α : Type} (m : List (CorpusId × α)) (k : CorpusId) (f : α → α) :
    List (CorpusId × α) :=
  m.map (fun p => if p.1 == k then (p.1, f p.2) else p)

def mapRemove {α : Type} (m : List (CorpusId × α)) (k : CorpusId) :
    List (CorpusId × α) :=
  m.filter (fun p => p.1 != k)

def keysOf {α : Type} (m : List (CorpusId × α)) : List CorpusId :=
  m.map Prod.fst

/-! ### The HashMap (default, linked-index) strategy -/

/-- `TestcaseStorage<I>` with the `corpus_btreemap` feature disabled:
the map of items, the progressive index, and the two sentinels. -/
structure HTestcaseStorage (I : Type) where
  map : List (CorpusId × TestcaseStorageItem I)
  progressive_idx : Nat
  first_idx : Option CorpusId
  last_idx : Option CorpusId
deriving Repr, DecidableEq

namespace HTestcaseStorage

/-- `TestcaseStorage::new` / `Default`. -/
def new (I : Type) : HTestcaseStorage I :=
  { map := [], progressive_idx := 0, first_idx := none, last_idx := none }

/-- `TestcaseStorage::insert` (HashMap strategy, lines 62-77): allocate the
progressive index, set the old tail's `next` link through
`self.map.get_mut(&last_idx).unwrap()`, update the sentinels, insert the
new item with `next = None`.  The `unwrap` on line 66 panics when
`last_idx` names an identifier that is no longer in the map — a state
reachable because `InMemoryCorpus::remove` deletes from the map without
refreshing the sentinels.  A panic (program abort) is modelled as `none`;
when the tail is live, `get_mut` + field write is `mapUpdate`. -/
def insert {I : Type} (s : HTestcaseStorage I) (tc : I) :
    Option (CorpusId × HTestcaseStorage I) :=
  let idx := s.progressive_idx
  match s.last_idx with
  | some last =>
    match mapGet s.map last with
    | none => none
    | some _ =>
      some (idx,
        { map := mapInsert
            (mapUpdate s.map last (fun it => { it with next := some idx }))
            idx { testcase := tc, prev := some last, next := none },
          progressive_idx := s.progressive_idx + 1,
          first_idx := if s.first_idx.isNone then some idx else s.first_idx,
          last_idx := some idx })
  | none =>
    some (idx,
      { map := mapInsert s.map idx { testcase := tc, prev := none, next := none },
        progressive_idx := s.progressive_idx + 1,
        first_idx := if s.first_idx.isNone then some idx else s.first_idx,
        last_idx := some idx })

/-- `TestcaseStorage::remove` (HashMap strategy, lines 89-107): remove the
item from the map, then rewire the neighbours' links and the sentinels.
(Note: `InMemoryCorpus::remove` does not call this function — it is dead
code in the source.)  Its `unwrap`s on the neighbour lookups (lines 92,
98) can panic on ill-linked states; the `mapUpdate` writes here agree
with the source exactly on states whose links are intact, which are the
only states this function is applied to in this development (it is only
ever evaluated, below, on a freshly built two-entry store). -/
def remove {I : Type} (s : HTestcaseStorage I) (idx : CorpusId) :
    Option (TestcaseStorageItem I) × HTestcaseStorage I :=
  match mapGet s.map idx with
  | none => (none, s)
  | some item =>
    let m0 := mapRemove s.map idx
    let (m1, first1) :=
      match item.prev with
      | some p => (mapUpdate m0 p (fun it => { it with next := item.next }),
                   s.first_idx)
      | none => (m0, item.next)
    let (m2, last1) :=
      match item.next with
      | some n => (mapUpdate m1 n (fun it => { it with prev := item.prev }),
                   s.last_idx)
      | none => (m1, item.prev)
    (some item,
      { s with map := m2, first_idx := first1, last_idx := last1 })

/-- `TestcaseStorage::get` (HashMap strategy). -/
def get {I : Type} (s : HTestcaseStorage I) (idx : CorpusId) :
    Option (TestcaseStorageItem I) :=
  mapGet s.map idx

/-- `TestcaseStorage::next` (HashMap strategy, lines 125-131). -/
def next {I : Type} (s : HTestcaseStorage I) (idx : CorpusId) : Option CorpusId :=
  match mapGet s.map idx with
  | some item => item.next
  | none => none

/-- `TestcaseStorage::prev` (HashMap strategy, lines 149-155). -/
def prev {I : Type} (s : HTestcaseStorage I) (idx : CorpusId) : Option CorpusId :=
  match mapGet s.map idx with
  | some item => item.prev
  | none => none

/-- `TestcaseStorage::first` (HashMap strategy). -/
def first {I : Type} (s : HTestcaseStorage I) : Option CorpusId :=
  s.first_idx

/-- `TestcaseStorage::last` (HashMap strategy). -/
def last {I : Type} (s : HTestcaseStorage I) : Option CorpusId :=
  s.last_idx

end HTestcaseStorage

/-! ### The BTreeMap (sorted-key) strategy -/

/-- Sorted insertion, modelling `BTreeMap::insert` on the sorted
association list. -/
def btInsert {α : Type} : List (CorpusId × α) → CorpusId → α → List (CorpusId × α)
  | [], k, v => [(k, v)]
  | (k', v') :: rest, k, v =>
    if k < k' then (k, v) :: (k', v') :: rest
    else if k == k' then (k, v) :: rest
    else (k', v') :: btInsert rest k v

/-- `TestcaseStorage<I>` with the `corpus_btreemap` feature: just the
key-ordered map and the progressive index (no sentinels, no links). -/
structure BTestcaseStorage (I : Type) where
  map : List (CorpusId × I)
  progressive_idx : Nat
deriving Repr, DecidableEq

namespace BTestcaseStorage

/-- `TestcaseStorage::new` / `Default`. -/
def new (I : Type) : BTestcaseStorage I :=
  { map := [], progressive_idx := 0 }

/-- `TestcaseStorage::insert` (BTreeMap strategy, lines 81-86). -/
def insert {I : Type} (s : BTestcaseStorage I) (tc : I) :
    CorpusId × BTestcaseStorage I :=
  (s.progressive_idx,
    { map := btInsert s.map s.progressive_idx tc,
      progressive_idx := s.progressive_idx + 1 })

/-- `TestcaseStorage::remove` (BTreeMap strategy, lines 110-112). -/
def remove {I : Type} (s : BTestcaseStorage I) (idx : CorpusId) :
    Option I × BTestcaseStorage I :=
  (mapGet s.map idx, { s with map := mapRemove s.map idx })

/-- `TestcaseStorage::get` (BTreeMap strategy). -/
def get {I : Type} (s : BTestcaseStorage I) (idx : CorpusId) : Option I :=
  mapGet s.map idx

/-- `TestcaseStorage::next` (BTreeMap strategy, lines 134-146): take the
range `[idx, +∞)` in key order; if its first key is not `idx` itself,
return nothing, otherwise return the following key. -/
def next {I : Type} (s : BTestcaseStorage I) (idx : CorpusId) : Option CorpusId :=
  match s.map.filter (fun p => decide (idx ≤ p.1)) with
  | [] => none
  | (k, _) :: rest => if k == idx then rest.head?.map Prod.fst else none

/-- `TestcaseStorage::prev` (BTreeMap strategy, lines 158-170): take the
range `(-∞, idx]` from the back in key order; if its last key is not `idx`
itself, return nothing, otherwise return the key before it. -/
def prev {I : Type} (s : BTestcaseStorage I) (idx : CorpusId) : Option CorpusId :=
  match (s.map.filter (fun p => decide (p.1 ≤ idx))).reverse with
  | [] => none
  | (k, _) :: rest => if k == idx then rest.head?.map Prod.fst else none

/-- `TestcaseStorage::first` (BTreeMap strategy): smallest key. -/
def first {I : Type} (s : BTestcaseStorage I) : Option CorpusId :=
  s.map.head?.map Prod.fst

/-- `TestcaseStorage::last` (BTreeMap strategy): largest key. -/
def last {I : Type} (s : BTestcaseStorage I) : Option CorpusId :=
  s.map.getLast?.map Prod.fst

end BTestcaseStorage

/-! ### `InMemoryCorpus`: the corpus wrapping a storage and the cursor

The `Corpus` trait methods are implemented on both instantiations.  Note
that `count`, `replace`, `remove` and `get` all operate directly on
`entries.map` (lines 224-257 of the source); in particular `remove` does
*not* go through `TestcaseStorage::remove`, so for the HashMap strategy the
sentinels and neighbour links are left untouched by it. -/

/-- `InMemoryCorpus<I>` backed by the HashMap strategy. -/
structure HInMemoryCorpus (I : Type) where
  entries : HTestcaseStorage I
  current : Option CorpusId
deriving Repr, DecidableEq

namespace HInMemoryCorpus

/-- `InMemoryCorpus::new` (lines 299-304). -/
def new (I : Type) : HInMemoryCorpus I :=
  { entries := HTestcaseStorage.new I, current := none }

/-- `Corpus::count`: `self.entries.map.len()`. -/
def count {I : Type} (c : HInMemoryCorpus I) : Nat :=
  c.entries.map.length

/-- `Corpus::add`: `Ok(self.entries.insert(RefCell::new(testcase)))`.
When the storage-level insert panics (stale `last_idx`), the whole call
aborts: `none`.  On the non-panicking path the result is always `Ok`. -/
def add {I : Type} (c : HInMemoryCorpus I) (tc : I) :
    Option (Except Error CorpusId × HInMemoryCorpus I) :=
  (c.entries.insert tc).map
    (fun r => (Except.ok r.1, { c with entries := r.2 }))

/-- `Corpus::replace` (lines 236-242): look the entry up with `get_mut`;
if present, swap the stored payload and return the old one, otherwise
`Error::key_not_found`. -/
def replace {I : Type} (c : HInMemoryCorpus I) (idx : CorpusId) (tc : I) :
    Except Error I × HInMemoryCorpus I :=
  match mapGet c.entries.map idx with
  | some item =>
    (Except.ok item.testcase,
      { c with entries :=
          { c.entries with
            map := mapUpdate c.entries.map idx
              (fun it => { it with testcase := tc }) } })
  | none => (Except.error (Error.keyNotFound idx), c)

/-- `Corpus::remove` (lines 246-248):
`Ok(self.entries.map.remove(&idx).map(|x| x.take()))` — a direct map
removal, bypassing `TestcaseStorage::remove`. -/
def remove {I : Type} (c : HInMemoryCorpus I) (idx : CorpusId) :
    Except Error (Option I) × HInMemoryCorpus I :=
  (Except.ok ((mapGet c.entries.map idx).map (fun it => it.testcase)),
    { c with entries := { c.entries with map := mapRemove c.entries.map idx } })

/-- `Corpus::get` (lines 252-257). -/
def get {I : Type} (c : HInMemoryCorpus I) (idx : CorpusId) : Except Error I :=
  match mapGet c.entries.map idx with
  | some item => Except.ok item.testcase
  | none => Except.error (Error.keyNotFound idx)

/-- `Corpus::next`: forwards to the storage. -/
def next {I : Type} (c : HInMemoryCorpus I) (idx : CorpusId) : Option CorpusId :=
  c.entries.next idx

/-- `Corpus::prev`: forwards to the storage. -/
def prev {I : Type} (c : HInMemoryCorpus I) (idx : CorpusId) : Option CorpusId :=
  c.entries.prev idx

/-- `Corpus::first`: forwards to the storage. -/
def first {I : Type} (c : HInMemoryCorpus I) : Option CorpusId :=
  c.entries.first

/-- `Corpus::last`: forwards to the storage. -/
def last {I : Type} (c : HInMemoryCorpus I) : Option CorpusId :=
  c.entries.last

/-- `Corpus::current_mut` used as a write: the only way `current` changes. -/
def setCurrent {I : Type} (c : HInMemoryCorpus I) (v : Option CorpusId) :
    HInMemoryCorpus I :=
  { c with current := v }

end HInMemoryCorpus

/-- `InMemoryCorpus<I>` backed by the BTreeMap strategy. -/
structure BInMemoryCorpus (I : Type) where
  entries : BTestcaseStorage I
  current : Option CorpusId
deriving Repr, DecidableEq

namespace BInMemoryCorpus

/-- `InMemoryCorpus::new`. -/
def new (I : Type) : BInMemoryCorpus I :=
  { entries := BTestcaseStorage.new I, current := none }

/-- `Corpus::count`. -/
def count {I : Type} (c : BInMemoryCorpus I) : Nat :=
  c.entries.map.length

/-- `Corpus::add`. -/
def add {I : Type} (c : BInMemoryCorpus I) (tc : I) :
    Except Error CorpusId × BInMemoryCorpus I :=
  let (idx, s) := c.entries.insert tc
  (Except.ok idx, { c with entries := s })

/-- `Corpus::replace`. -/
def replace {I : Type} (c : BInMemoryCorpus I) (idx : CorpusId) (tc : I) :
    Except Error I × BInMemoryCorpus I :=
  match mapGet c.entries.map idx with
  | some old =>
    (Except.ok old,
      { c with entries :=
          { c.entries with map := mapUpdate c.entries.map idx (fun _ => tc) } })
  | none => (Except.error (Error.keyNotFound idx), c)

/-- `Corpus::remove`: direct map removal. -/
def remove {I : Type} (c : BInMemoryCorpus I) (idx : CorpusId) :
    Except Error (Option I) × BInMemoryCorpus I :=
  (Except.ok (mapGet c.entries.map idx),
    { c with entries := { c.entries with map := mapRemove c.entries.map idx } })

/-- `Corpus::get`. -/
def get {I : Type} (c : BInMemoryCorpus I) (idx : CorpusId) : Except Error I :=
  match mapGet c.entries.map idx with
  | some tc => Except.ok tc
  | none => Except.error (Error.keyNotFound idx)

/-- `Corpus::next`. -/
def next {I : Type} (c : BInMemoryCorpus I) (idx : CorpusId) : Option CorpusId :=
  c.entries.next idx

/-- `Corpus::prev`. -/
def prev {I : Type} (c : BInMemoryCorpus I) (idx : CorpusId) : Option CorpusId :=
  c.entries.prev idx

/-- `Corpus::first`. -/
def first {I : Type} (c : BInMemoryCorpus I) : Option CorpusId :=
  c.entries.first

/-- `Corpus::last`. -/
def last {I : Type} (c : BInMemoryCorpus I) : Option CorpusId :=
  c.entries.last

/-- `Corpus::current_mut` used as a write. -/
def setCurrent {I : Type} (c : BInMemoryCorpus I) (v : Option CorpusId) :
    BInMemoryCorpus I :=
  { c with current := v }

end BInMemoryCorpus

/-! ### Operation sequences

`COp` is one corpus-level mutation (`Corpus::add` or `Corpus::remove`);
runs fold a list of operations over a corpus.  A HashMap-backed run is
`Option`-valued: it yields `none` as soon as an `add` hits the
storage-level panic, since the program aborts there and no later
observation exists.  The BTreeMap insert has no panic path, so the
BTreeMap run is total. -/

inductive COp (I : Type) where
  | add (tc : I)
  | remove (idx : CorpusId)
deriving Repr, DecidableEq

/-- One step of the HashMap-backed corpus; `none` models the panic. -/
def hStep {I : Type} (c : HInMemoryCorpus I) : COp I → Option (HInMemoryCorpus I)
  | COp.add tc => (c.add tc).map (fun r => r.2)
  | COp.remove idx => some (c.remove idx).2

/-- Run a list of operations on the HashMap-backed corpus; `none` when
some `add` along the way panics. -/
def hRun {I : Type} (c : HInMemoryCorpus I) : List (COp I) → Option (HInMemoryCorpus I)
  | [] => some c
  | op :: ops => (hStep c op).bind (fun c' => hRun c' ops)

/-- One step of the BTreeMap-backed corpus. -/
def bStep {I : Type} (c : BInMemoryCorpus I) : COp I → BInMemoryCorpus I
  | COp.add tc => (c.add tc).2
  | COp.remove idx => (c.remove idx).2

/-- Run a list of operations on the BTreeMap-backed corpus. -/
def bRun {I : Type} (c : BInMemoryCorpus I) : List (COp I) → BInMemoryCorpus I
  | [] => c
  | op :: ops => bRun (bStep c op) ops

/-- Number of `add` operations in a list. -/
def numAdds {I : Type} : List (COp I) → Nat
  | [] => 0
  | COp.add _ :: ops => numAdds ops + 1
  | COp.remove _ :: ops => numAdds ops

/-- Number of `remove` operations that return an entry (i.e. whose
identifier is present at the moment of the call), along a HashMap run;
`none` when the run aborts before completing. -/
def hSuccRemoves {I : Type} (c : HInMemoryCorpus I) : List (COp I) → Option Nat
  | [] => some 0
  | COp.add tc :: ops => (c.add tc).bind (fun r => hSuccRemoves r.2 ops)
  | COp.remove idx :: ops =>
    (hSuccRemoves (c.remove idx).2 ops).map
      (fun n => (if ((c.remove idx).1.toOption.join).isSome then 1 else 0) + n)

/-- Number of `remove` operations that return an entry along a BTreeMap
run. -/
def bSuccRemoves {I : Type} (c : BInMemoryCorpus I) : List (COp I) → Nat
  | [] => 0
  | COp.add tc :: ops => bSuccRemoves (bStep c (COp.add tc)) ops
  | COp.remove idx :: ops =>
    (if ((c.remove idx).1.toOption.join).isSome then 1 else 0) +
      bSuccRemoves (bStep c (COp.remove idx)) ops

/-- The `(identifier, payload)` pairs returned by the `add` calls of a run,
in call order (HashMap strategy); `none` when the run aborts, since an
`add` that panics returns nothing. -/
def hIssued {I : Type} (c : HInMemoryCorpus I) :
    List (COp I) → Option (List (CorpusId × I))
  | [] => some []
  | COp.add tc :: ops =>
    (c.add tc).bind (fun r =>
      (hIssued r.2 ops).map (fun l =>
        (match r.1 with
         | Except.ok idx => [(idx, tc)]
         | Except.error _ => []) ++ l))
  | COp.remove idx :: ops => hIssued (c.remove idx).2 ops

/-- The `(identifier, payload)` pairs returned by the `add` calls of a run,
in call order (BTreeMap strategy). -/
def bIssued {I : Type} (c : BInMemoryCorpus I) : List (COp I) → List (CorpusId × I)
  | [] => []
  | COp.add tc :: ops =>
    (match (c.add tc).1 with
     | Except.ok idx => [(idx, tc)]
     | Except.error _ => []) ++ bIssued (bStep c (COp.add tc)) ops
  | COp.remove idx :: ops => bIssued (bStep c (COp.remove idx)) ops

/-- Fuelled traversal from an optional starting identifier by repeated
`Corpus::next` (HashMap strategy). -/
def hTraverse {I : Type} (c : HInMemoryCorpus I) : Option CorpusId → Nat → List CorpusId
  | _, 0 => []
  | none, _ => []
  | some idx, fuel + 1 => idx :: hTraverse c (c.next idx) fuel

/-! ### Lemmas about the map primitives -/

theorem mapGet_nil {α : Type} (k : CorpusId) : mapGet ([] : List (CorpusId × α)) k = none :=
  rfl

theorem mapGet_cons {α : Type} (j : CorpusId) (v : α) (m : List (CorpusId × α))
    (k : CorpusId) :
    mapGet ((j, v) :: m) k = if j = k then some v else mapGet m k := by
  by_cases h : j = k <;> simp [mapGet, List.find?_cons, h]

theorem mapGet_isSome_iff {α : Type} (m : List (CorpusId × α)) (k : CorpusId) :
    (mapGet m k).isSome ↔ k ∈ keysOf m := by
  induction m with
  | nil => simp [mapGet_nil, keysOf]
  | cons p rest ih =>
    obtain ⟨a, b⟩ := p
    by_cases h : a = k
    · simp [mapGet_cons, keysOf, h]
    · simp only [mapGet_cons, keysOf, List.map_cons, List.mem_cons, if_neg h, ih, keysOf]
      tauto

theorem mapGet_eq_none_iff {α : Type} (m : List (CorpusId × α)) (k : CorpusId) :
    mapGet m k = none ↔ k ∉ keysOf m := by
  rw [← mapGet_isSome_iff, ← Option.not_isSome_iff_eq_none]

theorem mapUpdate_cons {α : Type} (a : CorpusId) (b : α) (rest : List (CorpusId × α))
    (k : CorpusId) (f : α → α) :
    mapUpdate ((a, b) :: rest) k f =
      (if a = k then (a, f b) else (a, b)) :: mapUpdate rest k f := by
  by_cases h : a = k <;> simp [mapUpdate, h]

theorem mapRemove_cons {α : Type} (a : CorpusId) (b : α) (rest : List (CorpusId × α))
    (k : CorpusId) :
    mapRemove ((a, b) :: rest) k =
      if a = k then mapRemove rest k else (a, b) :: mapRemove rest k := by
  by_cases h : a = k <;> simp [mapRemove, List.filter_cons, h]

theorem mapGet_mapUpdate {α : Type} (m : List (CorpusId × α)) (k : CorpusId)
    (f : α → α) (j : CorpusId) :
    mapGet (mapUpdate m k f) j = if j = k then (mapGet m j).map f else mapGet m j := by
  induction m with
  | nil => simp [mapUpdate, mapGet_nil]
  | cons p rest ih =>
    obtain ⟨a, b⟩ := p
    rw [mapUpdate_cons]
    by_cases hak : a = k
    · subst hak
      rw [if_pos rfl]
      simp only [mapGet_cons, ih]
      by_cases haj : a = j
      · subst haj; simp
      · have hja : ¬j = a := fun h => haj h.symm
        simp [haj, hja]
    · rw [if_neg hak]
      simp only [mapGet_cons, ih]
      by_cases haj : a = j
      · subst haj
        have hjk : ¬a = k := hak
        simp [hjk]
      · have hja : ¬j = a := fun h => haj h.symm
        simp [haj, hja]

theorem mapGet_mapRemove {α : Type} (m : List (CorpusId × α)) (k : CorpusId)
    (j : CorpusId) :
    mapGet (mapRemove m k) j = if j = k then none else mapGet m j := by
  induction m with
  | nil => simp [mapRemove, mapGet_nil]
  | cons p rest ih =>
    obtain ⟨a, b⟩ := p
    rw [mapRemove_cons]
    by_cases hak : a = k
    · subst hak
      rw [if_pos rfl]
      simp only [mapGet_cons, ih]
      by_cases haj : a = j
      · subst haj; simp
      · have hja : ¬j = a := fun h => haj h.symm
        simp [haj, hja]
    · rw [if_neg hak]
      simp only [mapGet_cons, ih]
      by_cases haj : a = j
      · subst haj
        have hjk : ¬a = k := hak
        simp [hjk]
      · have hja : ¬j = a := fun h => haj h.symm
        simp [haj, hja]

theorem mapGet_append_right_absent {α : Type} (m : List (CorpusId × α))
    (k : CorpusId) (v : α) (j : CorpusId) (h : mapGet m k = none) :
    mapGet (m ++ [(k, v)]) j = if j = k then some v else mapGet m j := by
  induction m with
  | nil => by_cases hjk : j = k <;> simp [mapGet_cons, mapGet_nil, hjk, Ne.symm]
  | cons p rest ih =>
    obtain ⟨a, b⟩ := p
    by_cases hja : a = j
    · subst hja
      have hk : a ≠ k := by
        intro hak; subst hak; simp [mapGet_cons] at h
      simp [mapGet_cons, hk, Ne.symm hk]
    · have h' : mapGet rest k = none := by
        by_cases hak : a = k
        · subst hak; simp [mapGet_cons] at h
        · simpa [mapGet_cons, hak] using h
      simp [List.cons_append, mapGet_cons, hja, ih h']

theorem find?_eq_none_of_mapGet_none {α : Type} (m : List (CorpusId × α))
    (k : CorpusId) (h : mapGet m k = none) :
    m.find? (fun p => p.1 == k) = none := by
  unfold mapGet at h
  cases hf : m.find? (fun p => p.1 == k) with
  | none => rfl
  | some p => rw [hf] at h; simp at h

theorem mapInsert_absent {α : Type} (m : List (CorpusId × α)) (k : CorpusId)
    (v : α) (h : mapGet m k = none) :
    mapInsert m k v = m ++ [(k, v)] := by
  unfold mapInsert
  rw [find?_eq_none_of_mapGet_none m k h]
  simp

theorem mapGet_mapInsert_absent {α : Type} (m : List (CorpusId × α)) (k : CorpusId)
    (v : α) (j : CorpusId) (h : mapGet m k = none) :
    mapGet (mapInsert m k v) j = if j = k then some v else mapGet m j := by
  rw [mapInsert_absent m k v h, mapGet_append_right_absent m k v j h]

theorem mapRemove_absent {α : Type} (m : List (CorpusId × α)) (k : CorpusId)
    (h : mapGet m k = none) : mapRemove m k = m := by
  induction m with
  | nil => rfl
  | cons p rest ih =>
    obtain ⟨a, b⟩ := p
    by_cases hak : a = k
    · subst hak; simp [mapGet_cons] at h
    · have h' : mapGet rest k = none := by simpa [mapGet_cons, hak] using h
      rw [mapRemove_cons, if_neg hak, ih h']

/-! ### Key-list lemmas -/

theorem keysOf_nil {α : Type} : keysOf ([] : List (CorpusId × α)) = [] := rfl

theorem keysOf_mapUpdate {α : Type} (m : List (CorpusId × α)) (k : CorpusId)
    (f : α → α) : keysOf (mapUpdate m k f) = keysOf m := by
  induction m with
  | nil => rfl
  | cons p rest ih =>
    obtain ⟨a, b⟩ := p
    by_cases hak : a = k <;> simp [mapUpdate, keysOf, hak] at ih ⊢ <;>
      simpa [keysOf, mapUpdate] using ih

theorem keysOf_append {α : Type} (m m' : List (CorpusId × α)) :
    keysOf (m ++ m') = keysOf m ++ keysOf m' := by
  simp [keysOf]

theorem keysOf_mapRemove_sublist {α : Type} (m : List (CorpusId × α)) (k : CorpusId) :
    (keysOf (mapRemove m k)).Sublist (keysOf m) := by
  unfold keysOf mapRemove
  exact List.Sublist.map Prod.fst (List.filter_sublist m)

theorem length_mapUpdate {α : Type} (m : List (CorpusId × α)) (k : CorpusId)
    (f : α → α) : (mapUpdate m k f).length = m.length := by
  simp [mapUpdate]

theorem length_mapInsert_absent {α : Type} (m : List (CorpusId × α)) (k : CorpusId)
    (v : α) (h : mapGet m k = none) :
    (mapInsert m k v).length = m.length + 1 := by
  rw [mapInsert_absent m k v h]; simp

theorem length_mapRemove_present {α : Type} (m : List (CorpusId × α)) (k : CorpusId)
    (hnd : (keysOf m).Nodup) (h : (mapGet m k).isSome) :
    (mapRemove m k).length + 1 = m.length := by
  induction m with
  | nil => simp [mapGet_nil] at h
  | cons p rest ih =>
    obtain ⟨a, b⟩ := p
    simp only [keysOf, List.map_cons, List.nodup_cons] at hnd
    by_cases hak : a = k
    · subst hak
      have hrest : mapGet rest a = none := by
        rw [mapGet_eq_none_iff]; exact hnd.1
      have hdrop : mapRemove ((a, b) :: rest) a = mapRemove rest a := by
        simp [mapRemove, List.filter_cons]
      rw [hdrop, mapRemove_absent rest a hrest]
      simp
    · have h' : (mapGet rest k).isSome := by
        rw [mapGet_cons] at h; simpa [hak] using h
      have hlen := ih hnd.2 h'
      have hkeep : mapRemove ((a, b) :: rest) k = (a, b) :: mapRemove rest k := by
        simp [mapRemove, List.filter_cons, bne_iff_ne, hak]
      rw [hkeep]
      simp only [List.length_cons]
      omega

/-! ### BTreeMap-specific lemmas -/

/-- When every key of the map is below `k`, the sorted insertion appends. -/
theorem btInsert_append {α : Type} (m : List (CorpusId × α)) (k : CorpusId) (v : α)
    (h : ∀ j ∈ keysOf m, j < k) : btInsert m k v = m ++ [(k, v)] := by
  induction m with
  | nil => rfl
  | cons p rest ih =>
    obtain ⟨a, b⟩ := p
    have ha : a < k := h a (by simp [keysOf])
    have h' : ∀ j ∈ keysOf rest, j < k := fun j hj => h j (by simp [keysOf] at hj ⊢; tauto)
    simp [btInsert, Nat.not_lt.2 (Nat.le_of_lt ha), Nat.ne_of_gt ha, ih h']

theorem head?_keysOf {α : Type} (m : List (CorpusId × α)) :
    (keysOf m).head? = m.head?.map Prod.fst := by
  cases m <;> rfl

/-- `next` on the BTreeMap storage only depends on the key list. -/
def nextKeys (ks : List CorpusId) (idx : CorpusId) : Option CorpusId :=
  match ks.filter (fun k => decide (idx ≤ k)) with
  | [] => none
  | k :: rest => if k == idx then rest.head? else none

/-- `prev` on the BTreeMap storage only depends on the key list. -/
def prevKeys (ks : List CorpusId) (idx : CorpusId) : Option CorpusId :=
  match (ks.filter (fun k => decide (k ≤ idx))).reverse with
  | [] => none
  | k :: rest => if k == idx then rest.head? else none

theorem keysOf_filter {α : Type} (m : List (CorpusId × α)) (q : CorpusId → Bool) :
    keysOf (m.filter (fun p => q p.1)) = (keysOf m).filter q := by
  induction m with
  | nil => rfl
  | cons p rest ih =>
    obtain ⟨a, b⟩ := p
    by_cases h : q a = true <;> simp [keysOf, List.filter_cons, h] at ih ⊢ <;>
      simpa [keysOf] using ih

theorem bNext_eq_nextKeys {I : Type} (s : BTestcaseStorage I) (idx : CorpusId) :
    s.next idx = nextKeys (keysOf s.map) idx := by
  unfold BTestcaseStorage.next nextKeys
  rw [← keysOf_filter s.map (fun k => decide (idx ≤ k))]
  cases hf : s.map.filter (fun p => decide (idx ≤ p.1)) with
  | nil => simp [hf, keysOf]
  | cons hd tl =>
    obtain ⟨a, b⟩ := hd
    simp [hf, keysOf, head?_keysOf]

theorem keysOf_reverse {α : Type} (m : List (CorpusId × α)) :
    keysOf m.reverse = (keysOf m).reverse := by
  simp [keysOf]

theorem bPrev_eq_prevKeys {I : Type} (s : BTestcaseStorage I) (idx : CorpusId) :
    s.prev idx = prevKeys (keysOf s.map) idx := by
  unfold BTestcaseStorage.prev prevKeys
  rw [← keysOf_filter s.map (fun k => decide (k ≤ idx)), ← keysOf_reverse]
  cases hf : (s.map.filter (fun p => decide (p.1 ≤ idx))).reverse with
  | nil => simp [hf, keysOf]
  | cons hd tl =>
    obtain ⟨a, b⟩ := hd
    simp [hf, keysOf, head?_keysOf]

/-- The BTreeMap `next` of an identifier that is not a key returns nothing:
the range's first key differs from the queried one. -/
theorem nextKeys_not_mem (ks : List CorpusId) (idx : CorpusId) (h : idx ∉ ks) :
    nextKeys ks idx = none := by
  unfold nextKeys
  cases hf : ks.filter (fun k => decide (idx ≤ k)) with
  | nil => rfl
  | cons k rest =>
    have hk : k ∈ ks := by
      have : k ∈ ks.filter (fun k => decide (idx ≤ k)) := hf ▸ List.mem_cons_self k rest
      exact List.mem_of_mem_filter this
    have : ¬(k == idx) = true := by
      simp only [beq_iff_eq]
      intro he; exact h (he ▸ hk)
    simp [this]

theorem prevKeys_not_mem (ks : List CorpusId) (idx : CorpusId) (h : idx ∉ ks) :
    prevKeys ks idx = none := by
  unfold prevKeys
  cases hf : (ks.filter (fun k => decide (k ≤ idx))).reverse with
  | nil => rfl
  | cons k rest =>
    have hk : k ∈ ks := by
      have h1 : k ∈ (ks.filter (fun k => decide (k ≤ idx))).reverse :=
        hf ▸ List.mem_cons_self k rest
      exact List.mem_of_mem_filter (List.mem_reverse.1 h1)
    have : ¬(k == idx) = true := by
      simp only [beq_iff_eq]
      intro he; exact h (he ▸ hk)
    simp [this]

/-! ### Well-formedness invariants

Every corpus reachable from `new` has all its keys strictly below the
progressive index (identifiers are never reused) and pairwise distinct. -/

def HWf {I : Type} (c : HInMemoryCorpus I) : Prop :=
  (∀ j ∈ keysOf c.entries.map, j < c.entries.progressive_idx) ∧
    (keysOf c.entries.map).Nodup

def BWf {I : Type} (c : BInMemoryCorpus I) : Prop :=
  (∀ j ∈ keysOf c.entries.map, j < c.entries.progressive_idx) ∧
    (keysOf c.entries.map).Nodup

theorem hWf_new (I : Type) : HWf (HInMemoryCorpus.new I) := by
  constructor
  · intro j hj; simp [HInMemoryCorpus.new, HTestcaseStorage.new, keysOf] at hj
  · simp [HInMemoryCorpus.new, HTestcaseStorage.new, keysOf]

theorem bWf_new (I : Type) : BWf (BInMemoryCorpus.new I) := by
  constructor
  · intro j hj; simp [BInMemoryCorpus.new, BTestcaseStorage.new, keysOf] at hj
  · simp [BInMemoryCorpus.new, BTestcaseStorage.new, keysOf]

/-! ### Step lemmas: HashMap strategy -/

theorem hInsert_stale {I : Type} (s : HTestcaseStorage I) (tc : I) (l : CorpusId)
    (hl : s.last_idx = some l) (hm : mapGet s.map l = none) :
    s.insert tc = none := by
  simp [HTestcaseStorage.insert, hl, hm]

theorem hInsert_no_tail {I : Type} (s : HTestcaseStorage I) (tc : I)
    (hl : s.last_idx = none) :
    s.insert tc = some (s.progressive_idx,
      { map := mapInsert s.map s.progressive_idx
          { testcase := tc, prev := none, next := none },
        progressive_idx := s.progressive_idx + 1,
        first_idx := if s.first_idx.isNone then some s.progressive_idx
          else s.first_idx,
        last_idx := some s.progressive_idx }) := by
  simp [HTestcaseStorage.insert, hl]

theorem hInsert_live_tail {I : Type} (s : HTestcaseStorage I) (tc : I)
    (l : CorpusId) (it : TestcaseStorageItem I)
    (hl : s.last_idx = some l) (hm : mapGet s.map l = some it) :
    s.insert tc = some (s.progressive_idx,
      { map := mapInsert
          (mapUpdate s.map l (fun x => { x with next := some s.progressive_idx }))
          s.progressive_idx { testcase := tc, prev := some l, next := none },
        progressive_idx := s.progressive_idx + 1,
        first_idx := if s.first_idx.isNone then some s.progressive_idx
          else s.first_idx,
        last_idx := some s.progressive_idx }) := by
  simp [HTestcaseStorage.insert, hl, hm]

/-- When the storage-level insert completes (no panic), it returned the
progressive index and advanced it by one. -/
theorem hInsert_some_spec {I : Type} (s : HTestcaseStorage I) (tc : I)
    (r : CorpusId × HTestcaseStorage I) (hs : s.insert tc = some r) :
    r.1 = s.progressive_idx ∧ r.2.progressive_idx = s.progressive_idx + 1 := by
  cases hl : s.last_idx with
  | none =>
    rw [hInsert_no_tail s tc hl] at hs
    constructor
    · rw [← Option.some.inj hs]
    · rw [← Option.some.inj hs]
  | some l =>
    cases hm : mapGet s.map l with
    | none =>
      rw [hInsert_stale s tc l hl hm] at hs
      exact Option.noConfusion hs
    | some it =>
      rw [hInsert_live_tail s tc l it hl hm] at hs
      constructor
      · rw [← Option.some.inj hs]
      · rw [← Option.some.inj hs]

theorem keysOf_hInsert {I : Type} (s : HTestcaseStorage I) (tc : I)
    (r : CorpusId × HTestcaseStorage I)
    (h : ∀ j ∈ keysOf s.map, j < s.progressive_idx)
    (hs : s.insert tc = some r) :
    keysOf r.2.map = keysOf s.map ++ [s.progressive_idx] := by
  have habs : ∀ m1 : List (CorpusId × TestcaseStorageItem I),
      keysOf m1 = keysOf s.map → mapGet m1 s.progressive_idx = none := by
    intro m1 hkeys
    rw [mapGet_eq_none_iff, hkeys]
    intro hmem
    exact absurd (h _ hmem) (Nat.lt_irrefl _)
  cases hl : s.last_idx with
  | none =>
    rw [hInsert_no_tail s tc hl] at hs
    have hmap : r.2.map = mapInsert s.map s.progressive_idx
        { testcase := tc, prev := none, next := none } := by
      rw [← Option.some.inj hs]
    rw [hmap, mapInsert_absent _ _ _ (habs s.map rfl), keysOf_append]
    rfl
  | some l =>
    cases hm : mapGet s.map l with
    | none =>
      rw [hInsert_stale s tc l hl hm] at hs
      exact Option.noConfusion hs
    | some it =>
      rw [hInsert_live_tail s tc l it hl hm] at hs
      have hmap : r.2.map = mapInsert
          (mapUpdate s.map l (fun x => { x with next := some s.progressive_idx }))
          s.progressive_idx { testcase := tc, prev := some l, next := none } := by
        rw [← Option.some.inj hs]
      rw [hmap, mapInsert_absent _ _ _ (habs _ (keysOf_mapUpdate _ _ _)),
        keysOf_append, keysOf_mapUpdate]
      rfl

theorem length_hInsert {I : Type} (s : HTestcaseStorage I) (tc : I)
    (r : CorpusId × HTestcaseStorage I)
    (h : ∀ j ∈ keysOf s.map, j < s.progressive_idx)
    (hs : s.insert tc = some r) :
    r.2.map.length = s.map.length + 1 := by
  have hk := keysOf_hInsert s tc r h hs
  have hlen : (r.2.map.map Prod.fst).length = (s.map.map Prod.fst).length + 1 := by
    simp only [keysOf] at hk
    rw [hk]
    simp
  simpa using hlen

/-- What a lookup sees after a completed insertion: the new entry at the
fresh identifier, otherwise an entry whose payload is unchanged (only the
old tail's `next` link may have been rewritten). -/
theorem mapGet_hInsert_testcase {I : Type} (s : HTestcaseStorage I) (tc : I)
    (r : CorpusId × HTestcaseStorage I) (j : CorpusId)
    (it' : TestcaseStorageItem I)
    (h : ∀ j ∈ keysOf s.map, j < s.progressive_idx)
    (hs : s.insert tc = some r)
    (hget : mapGet r.2.map j = some it') :
    (j = s.progressive_idx ∧ it'.testcase = tc) ∨
      (∃ it0, mapGet s.map j = some it0 ∧ it0.testcase = it'.testcase) := by
  have habs : ∀ m1 : List (CorpusId × TestcaseStorageItem I),
      keysOf m1 = keysOf s.map → mapGet m1 s.progressive_idx = none := by
    intro m1 hkeys
    rw [mapGet_eq_none_iff, hkeys]
    intro hmem
    exact absurd (h _ hmem) (Nat.lt_irrefl _)
  cases hl : s.last_idx with
  | none =>
    rw [hInsert_no_tail s tc hl] at hs
    have hmap : r.2.map = mapInsert s.map s.progressive_idx
        { testcase := tc, prev := none, next := none } := by
      rw [← Option.some.inj hs]
    rw [hmap, mapGet_mapInsert_absent _ _ _ _ (habs _ rfl)] at hget
    by_cases hj : j = s.progressive_idx
    · rw [if_pos hj] at hget
      left
      exact ⟨hj, by cases hget; rfl⟩
    · rw [if_neg hj] at hget
      right
      exact ⟨it', hget, rfl⟩
  | some lastIdx =>
    cases hm : mapGet s.map lastIdx with
    | none =>
      rw [hInsert_stale s tc lastIdx hl hm] at hs
      exact Option.noConfusion hs
    | some itl =>
      rw [hInsert_live_tail s tc lastIdx itl hl hm] at hs
      have hmap : r.2.map = mapInsert
          (mapUpdate s.map lastIdx
            (fun x => { x with next := some s.progressive_idx }))
          s.progressive_idx
          { testcase := tc, prev := some lastIdx, next := none } := by
        rw [← Option.some.inj hs]
      rw [hmap,
        mapGet_mapInsert_absent _ _ _ _ (habs _ (keysOf_mapUpdate _ _ _))] at hget
      by_cases hj : j = s.progressive_idx
      · rw [if_pos hj] at hget
        left
        exact ⟨hj, by cases hget; rfl⟩
      · rw [if_neg hj] at hget
        rw [mapGet_mapUpdate] at hget
        by_cases hjl : j = lastIdx
        · rw [if_pos hjl] at hget
          right
          cases h0 : mapGet s.map j with
          | none => rw [h0] at hget; simp at hget
          | some it0 =>
            rw [h0] at hget
            simp only [Option.map_some'] at hget
            cases hget
            exact ⟨it0, rfl, rfl⟩
        · rw [if_neg hjl] at hget
          right
          exact ⟨it', hget, rfl⟩

/-- A completed `Corpus::add` wraps a completed storage insert. -/
theorem hAdd_some_elim {I : Type} (c : HInMemoryCorpus I) (tc : I)
    (r : Except Error CorpusId × HInMemoryCorpus I) (h : c.add tc = some r) :
    ∃ r0, c.entries.insert tc = some r0 ∧ r.1 = Except.ok r0.1 ∧
      r.2 = { c with entries := r0.2 } := by
  simp only [HInMemoryCorpus.add, Option.map_eq_some'] at h
  obtain ⟨r0, h0, hr⟩ := h
  refine ⟨r0, h0, ?_, ?_⟩ <;> rw [← hr]

theorem hAdd_ret {I : Type} (c : HInMemoryCorpus I) (tc : I)
    (r : Except Error CorpusId × HInMemoryCorpus I) (h : c.add tc = some r) :
    r.1 = Except.ok c.entries.progressive_idx := by
  obtain ⟨r0, h0, h1, _⟩ := hAdd_some_elim c tc r h
  rw [h1, (hInsert_some_spec c.entries tc r0 h0).1]

theorem hAdd_prog {I : Type} (c : HInMemoryCorpus I) (tc : I)
    (r : Except Error CorpusId × HInMemoryCorpus I) (h : c.add tc = some r) :
    r.2.entries.progressive_idx = c.entries.progressive_idx + 1 := by
  obtain ⟨r0, h0, _, h2⟩ := hAdd_some_elim c tc r h
  rw [h2]
  exact (hInsert_some_spec c.entries tc r0 h0).2

theorem hAdd_current {I : Type} (c : HInMemoryCorpus I) (tc : I)
    (r : Except Error CorpusId × HInMemoryCorpus I) (h : c.add tc = some r) :
    r.2.current = c.current := by
  obtain ⟨r0, h0, _, h2⟩ := hAdd_some_elim c tc r h
  rw [h2]

theorem hWf_add {I : Type} (c : HInMemoryCorpus I) (tc : I)
    (r : Except Error CorpusId × HInMemoryCorpus I)
    (hwf : HWf c) (h : c.add tc = some r) : HWf r.2 := by
  obtain ⟨hb, hnd⟩ := hwf
  obtain ⟨r0, h0, _, h2⟩ := hAdd_some_elim c tc r h
  have hkeys := keysOf_hInsert c.entries tc r0 hb h0
  have hprog := (hInsert_some_spec c.entries tc r0 h0).2
  suffices hws : (∀ j ∈ keysOf r0.2.map, j < r0.2.progressive_idx) ∧
      (keysOf r0.2.map).Nodup by
    rw [h2]
    exact hws
  constructor
  · intro j hj
    rw [hkeys] at hj
    rw [hprog]
    rcases List.mem_append.1 hj with h | h
    · exact Nat.lt_succ_of_lt (hb j h)
    · simp at h
      exact h ▸ Nat.lt_succ_self _
  · rw [hkeys]
    simp only [List.nodup_append, List.nodup_cons, List.not_mem_nil,
      not_false_iff, List.nodup_nil, and_true, true_and]
    constructor
    · exact hnd
    · intro j hj hmem
      simp at hmem
      subst hmem
      exact absurd (hb _ hj) (Nat.lt_irrefl _)

theorem hCount_add {I : Type} (c : HInMemoryCorpus I) (tc : I)
    (r : Except Error CorpusId × HInMemoryCorpus I)
    (hwf : HWf c) (h : c.add tc = some r) : r.2.count = c.count + 1 := by
  obtain ⟨r0, h0, _, h2⟩ := hAdd_some_elim c tc r h
  have hlen := length_hInsert c.entries tc r0 hwf.1 h0
  rw [h2]
  exact hlen

theorem hWf_remove {I : Type} (c : HInMemoryCorpus I) (idx : CorpusId)
    (hwf : HWf c) : HWf (c.remove idx).2 := by
  obtain ⟨hb, hnd⟩ := hwf
  constructor
  · intro j hj
    simp only [HInMemoryCorpus.remove] at hj ⊢
    exact hb j ((keysOf_mapRemove_sublist _ _).subset hj)
  · simp only [HInMemoryCorpus.remove]
    exact hnd.sublist (keysOf_mapRemove_sublist _ _)

theorem hCount_remove_present {I : Type} (c : HInMemoryCorpus I) (idx : CorpusId)
    (hwf : HWf c) (h : (mapGet c.entries.map idx).isSome) :
    (c.remove idx).2.count + 1 = c.count := by
  simp only [HInMemoryCorpus.remove, HInMemoryCorpus.count]
  exact length_mapRemove_present _ _ hwf.2 h

theorem hCount_remove_absent {I : Type} (c : HInMemoryCorpus I) (idx : CorpusId)
    (h : mapGet c.entries.map idx = none) :
    (c.remove idx).2.count = c.count := by
  simp only [HInMemoryCorpus.remove, HInMemoryCorpus.count]
  rw [mapRemove_absent _ _ h]

theorem hRemove_success {I : Type} (c : HInMemoryCorpus I) (idx : CorpusId) :
    ((c.remove idx).1.toOption.join).isSome = (mapGet c.entries.map idx).isSome := by
  simp [HInMemoryCorpus.remove, Except.toOption, Option.join]

/-! ### Step lemmas: BTreeMap strategy -/

theorem bAdd_def {I : Type} (c : BInMemoryCorpus I) (tc : I) :
    c.add tc = (Except.ok c.entries.progressive_idx,
      { c with entries :=
        { map := btInsert c.entries.map c.entries.progressive_idx tc,
          progressive_idx := c.entries.progressive_idx + 1 } }) :=
  rfl

theorem bAdd_map {I : Type} (c : BInMemoryCorpus I) (tc : I)
    (h : ∀ j ∈ keysOf c.entries.map, j < c.entries.progressive_idx) :
    (c.add tc).2.entries.map =
      c.entries.map ++ [(c.entries.progressive_idx, tc)] := by
  rw [bAdd_def]
  exact btInsert_append _ _ _ h

theorem bWf_add {I : Type} (c : BInMemoryCorpus I) (tc : I) (hwf : BWf c) :
    BWf (c.add tc).2 := by
  obtain ⟨hb, hnd⟩ := hwf
  constructor
  · intro j hj
    rw [bAdd_map c tc hb, keysOf_append] at hj
    rw [bAdd_def]
    simp only
    rcases List.mem_append.1 hj with h | h
    · exact Nat.lt_succ_of_lt (hb j h)
    · simp [keysOf] at h
      exact h ▸ Nat.lt_succ_self _
  · rw [bAdd_map c tc hb, keysOf_append,
      show keysOf [(c.entries.progressive_idx, tc)] = [c.entries.progressive_idx] from rfl]
    simp only [List.nodup_append, List.nodup_cons, List.not_mem_nil,
      not_false_iff, List.nodup_nil, and_true, true_and]
    constructor
    · exact hnd
    · intro j hj hmem
      simp at hmem
      subst hmem
      exact absurd (hb _ hj) (Nat.lt_irrefl _)

theorem bCount_add {I : Type} (c : BInMemoryCorpus I) (tc : I) (hwf : BWf c) :
    (c.add tc).2.count = c.count + 1 := by
  simp only [BInMemoryCorpus.count]
  rw [bAdd_map c tc hwf.1]
  simp

theorem bWf_remove {I : Type} (c : BInMemoryCorpus I) (idx : CorpusId)
    (hwf : BWf c) : BWf (c.remove idx).2 := by
  obtain ⟨hb, hnd⟩ := hwf
  constructor
  · intro j hj
    simp only [BInMemoryCorpus.remove] at hj ⊢
    exact hb j ((keysOf_mapRemove_sublist _ _).subset hj)
  · simp only [BInMemoryCorpus.remove]
    exact hnd.sublist (keysOf_mapRemove_sublist _ _)

theorem bCount_remove_present {I : Type} (c : BInMemoryCorpus I) (idx : CorpusId)
    (hwf : BWf c) (h : (mapGet c.entries.map idx).isSome) :
    (c.remove idx).2.count + 1 = c.count := by
  simp only [BInMemoryCorpus.remove, BInMemoryCorpus.count]
  exact length_mapRemove_present _ _ hwf.2 h

theorem bCount_remove_absent {I : Type} (c : BInMemoryCorpus I) (idx : CorpusId)
    (h : mapGet c.entries.map idx = none) :
    (c.remove idx).2.count = c.count := by
  simp only [BInMemoryCorpus.remove, BInMemoryCorpus.count]
  rw [mapRemove_absent _ _ h]

theorem bRemove_success {I : Type} (c : BInMemoryCorpus I) (idx : CorpusId) :
    ((c.remove idx).1.toOption.join).isSome = (mapGet c.entries.map idx).isSome := by
  simp [BInMemoryCorpus.remove, Except.toOption, Option.join]

/-! ### Run lemmas: count bookkeeping -/

theorem hRun_cons_remove {I : Type} (c : HInMemoryCorpus I) (idx : CorpusId)
    (ops : List (COp I)) :
    hRun c (COp.remove idx :: ops) = hRun (c.remove idx).2 ops := by
  simp [hRun, hStep]

theorem hRun_add_elim {I : Type} (c : HInMemoryCorpus I) (tc : I)
    (ops : List (COp I)) (c' : HInMemoryCorpus I)
    (hr : hRun c (COp.add tc :: ops) = some c') :
    ∃ r, c.add tc = some r ∧ hRun r.2 ops = some c' := by
  cases ha : c.add tc with
  | none => simp [hRun, hStep, ha] at hr
  | some r =>
    refine ⟨r, rfl, ?_⟩
    simpa [hRun, hStep, ha] using hr

theorem hRun_count {I : Type} :
    ∀ (ops : List (COp I)) (c : HInMemoryCorpus I), HWf c →
      ∀ (c' : HInMemoryCorpus I) (m : Nat),
        hRun c ops = some c' → hSuccRemoves c ops = some m →
        c'.count + m = numAdds ops + c.count := by
  intro ops
  induction ops with
  | nil =>
    intro c _ c' m hr hm
    simp only [hRun, Option.some.injEq] at hr
    simp only [hSuccRemoves, Option.some.injEq] at hm
    subst hr
    subst hm
    simp [numAdds]
  | cons op ops ih =>
    intro c hwf c' m hr hm
    cases op with
    | add tc =>
      obtain ⟨r, ha, hr'⟩ := hRun_add_elim c tc ops c' hr
      have hm' : hSuccRemoves r.2 ops = some m := by
        simpa [hSuccRemoves, ha] using hm
      have h1 := ih r.2 (hWf_add c tc r hwf ha) c' m hr' hm'
      have h2 := hCount_add c tc r hwf ha
      simp only [numAdds]
      omega
    | remove idx =>
      rw [hRun_cons_remove] at hr
      cases hn : hSuccRemoves ((c.remove idx).2) ops with
      | none => simp [hSuccRemoves, hn] at hm
      | some n =>
        have hmn : (if ((c.remove idx).1.toOption.join).isSome then 1 else 0) + n
            = m := by
          simpa [hSuccRemoves, hn] using hm
        have hwf' := hWf_remove c idx hwf
        have h1 := ih (c.remove idx).2 hwf' c' n hr hn
        cases hmg : mapGet c.entries.map idx with
        | some v =>
          have h2 := hCount_remove_present c idx hwf (by rw [hmg]; rfl)
          have h3 : ((c.remove idx).1.toOption.join).isSome = true := by
            rw [hRemove_success, hmg]; rfl
          simp only [h3, if_true] at hmn
          simp only [numAdds]
          omega
        | none =>
          have h2 := hCount_remove_absent c idx hmg
          have h3 : ((c.remove idx).1.toOption.join).isSome = false := by
            rw [hRemove_success, hmg]; rfl
          simp only [h3, Bool.false_eq_true, if_false] at hmn
          simp only [numAdds]
          omega

theorem bRun_count {I : Type} :
    ∀ (ops : List (COp I)) (c : BInMemoryCorpus I), BWf c →
      (bRun c ops).count + bSuccRemoves c ops = numAdds ops + c.count := by
  intro ops
  induction ops with
  | nil => intro c _; simp [bRun, bSuccRemoves, numAdds]
  | cons op ops ih =>
    intro c hwf
    cases op with
    | add tc =>
      have h1 := ih ((c.add tc).2) (bWf_add c tc hwf)
      have h2 := bCount_add c tc hwf
      simp only [bRun, bSuccRemoves, numAdds, bStep]
      omega
    | remove idx =>
      have hwf' := bWf_remove c idx hwf
      have h1 := ih ((c.remove idx).2) hwf'
      cases hm : mapGet c.entries.map idx with
      | some v =>
        have h2 := bCount_remove_present c idx hwf (by rw [hm]; rfl)
        have h3 : ((c.remove idx).1.toOption.join).isSome = true := by
          rw [bRemove_success, hm]; rfl
        simp only [bRun, bSuccRemoves, numAdds, bStep, h3, if_true]
        omega
      | none =>
        have h2 := bCount_remove_absent c idx hm
        have h3 : ((c.remove idx).1.toOption.join).isSome = false := by
          rw [bRemove_success, hm]; rfl
        simp only [bRun, bSuccRemoves, numAdds, bStep, h3, Bool.false_eq_true, if_false]
        omega

/-! ### Run lemmas: issued identifiers -/

theorem hIssued_cons_remove {I : Type} (c : HInMemoryCorpus I) (idx : CorpusId)
    (ops : List (COp I)) :
    hIssued c (COp.remove idx :: ops) = hIssued (c.remove idx).2 ops := by
  simp only [hIssued]

theorem hIssued_add_elim {I : Type} (c : HInMemoryCorpus I) (tc : I)
    (ops : List (COp I)) (l : List (CorpusId × I))
    (hi : hIssued c (COp.add tc :: ops) = some l) :
    ∃ r l', c.add tc = some r ∧ hIssued r.2 ops = some l' ∧
      l = (c.entries.progressive_idx, tc) :: l' := by
  cases ha : c.add tc with
  | none => simp [hIssued, ha] at hi
  | some r =>
    cases hl' : hIssued r.2 ops with
    | none => simp [hIssued, ha, hl'] at hi
    | some l' =>
      refine ⟨r, l', rfl, hl', ?_⟩
      have hil : hIssued c (COp.add tc :: ops) = some ((match r.1 with
          | Except.ok idx => [(idx, tc)]
          | Except.error _ => ([] : List (CorpusId × I))) ++ l') := by
        simp [hIssued, ha, hl']
      rw [hil] at hi
      rw [← Option.some.inj hi, hAdd_ret c tc r ha]
      rfl

theorem hIssued_floor {I : Type} :
    ∀ (ops : List (COp I)) (c : HInMemoryCorpus I) (l : List (CorpusId × I)),
      hIssued c ops = some l →
      ∀ x ∈ l, c.entries.progressive_idx ≤ x.1 := by
  intro ops
  induction ops with
  | nil =>
    intro c l hi x hx
    simp only [hIssued, Option.some.injEq] at hi
    subst hi
    simp at hx
  | cons op ops ih =>
    intro c l hi x hx
    cases op with
    | add tc =>
      obtain ⟨r, l', ha, hl', hle⟩ := hIssued_add_elim c tc ops l hi
      subst hle
      rcases List.mem_cons.1 hx with h | h
      · subst h; exact Nat.le_refl _
      · have h1 := ih r.2 l' hl' x h
        rw [hAdd_prog c tc r ha] at h1
        exact Nat.le_of_succ_le h1
    | remove idx =>
      rw [hIssued_cons_remove] at hi
      exact ih (c.remove idx).2 l hi x hx

theorem hIssued_sorted {I : Type} :
    ∀ (ops : List (COp I)) (c : HInMemoryCorpus I) (l : List (CorpusId × I)),
      hIssued c ops = some l → l.Pairwise (fun a b => a.1 < b.1) := by
  intro ops
  induction ops with
  | nil =>
    intro c l hi
    simp only [hIssued, Option.some.injEq] at hi
    subst hi
    simp
  | cons op ops ih =>
    intro c l hi
    cases op with
    | add tc =>
      obtain ⟨r, l', ha, hl', hle⟩ := hIssued_add_elim c tc ops l hi
      subst hle
      refine List.Pairwise.cons ?_ (ih r.2 l' hl')
      intro y hy
      have h1 := hIssued_floor ops r.2 l' hl' y hy
      rw [hAdd_prog c tc r ha] at h1
      exact Nat.lt_of_succ_le h1
    | remove idx =>
      rw [hIssued_cons_remove] at hi
      exact ih (c.remove idx).2 l hi

theorem hIssued_mem_of_get {I : Type} :
    ∀ (ops : List (COp I)) (c : HInMemoryCorpus I), HWf c →
      ∀ (c' : HInMemoryCorpus I) (l : List (CorpusId × I)) (id : CorpusId)
        (it : TestcaseStorageItem I),
        hRun c ops = some c' → hIssued c ops = some l →
        mapGet c'.entries.map id = some it →
        (id, it.testcase) ∈ l ∨
          ∃ it0, mapGet c.entries.map id = some it0 ∧
            it0.testcase = it.testcase := by
  intro ops
  induction ops with
  | nil =>
    intro c _ c' l id it hr hi h
    simp only [hRun, Option.some.injEq] at hr
    subst hr
    exact Or.inr ⟨it, h, rfl⟩
  | cons op ops ih =>
    intro c hwf c' l id it hr hi h
    cases op with
    | add tc =>
      obtain ⟨r, l', ha, hl', hle⟩ := hIssued_add_elim c tc ops l hi
      subst hle
      obtain ⟨r2, ha2, hr'⟩ := hRun_add_elim c tc ops c' hr
      rw [ha] at ha2
      have hrr := Option.some.inj ha2
      subst hrr
      rcases ih r.2 (hWf_add c tc r hwf ha) c' l' id it hr' hl' h with
        hmem | ⟨it0', hget', heq⟩
      · exact Or.inl (List.mem_cons_of_mem _ hmem)
      · obtain ⟨r0, h0, _, h2⟩ := hAdd_some_elim c tc r ha
        have hget2 : mapGet r0.2.map id = some it0' := by
          rw [h2] at hget'
          exact hget'
        rcases mapGet_hInsert_testcase c.entries tc r0 id it0' hwf.1 h0 hget2 with
          ⟨hid, htc⟩ | ⟨it0, hg0, heq0⟩
        · refine Or.inl ?_
          have hpair : (id, it.testcase) = (c.entries.progressive_idx, tc) := by
            rw [hid, ← heq, htc]
          rw [hpair]
          exact List.mem_cons_self _ _
        · exact Or.inr ⟨it0, hg0, heq0.trans heq⟩
    | remove idx =>
      rw [hRun_cons_remove] at hr
      rw [hIssued_cons_remove] at hi
      rcases ih (c.remove idx).2 (hWf_remove c idx hwf) c' l id it hr hi h with
        hmem | ⟨it0', hget', heq⟩
      · exact Or.inl hmem
      · have hx : mapGet (mapRemove c.entries.map idx) id = some it0' := hget'
        rw [mapGet_mapRemove] at hx
        by_cases hidx : id = idx
        · rw [if_pos hidx] at hx; cases hx
        · rw [if_neg hidx] at hx
          exact Or.inr ⟨it0', hx, heq⟩

theorem bIssued_cons_add {I : Type} (c : BInMemoryCorpus I) (tc : I)
    (ops : List (COp I)) :
    bIssued c (COp.add tc :: ops) =
      (c.entries.progressive_idx, tc) :: bIssued (c.add tc).2 ops := by
  simp only [bIssued, bStep, bAdd_def]
  rfl

theorem bIssued_cons_remove {I : Type} (c : BInMemoryCorpus I) (idx : CorpusId)
    (ops : List (COp I)) :
    bIssued c (COp.remove idx :: ops) = bIssued (c.remove idx).2 ops := by
  simp only [bIssued, bStep]

theorem bAdd_prog {I : Type} (c : BInMemoryCorpus I) (tc : I) :
    (c.add tc).2.entries.progressive_idx = c.entries.progressive_idx + 1 := by
  rw [bAdd_def]

theorem bIssued_floor {I : Type} :
    ∀ (ops : List (COp I)) (c : BInMemoryCorpus I) (x : CorpusId × I),
      x ∈ bIssued c ops → c.entries.progressive_idx ≤ x.1 := by
  intro ops
  induction ops with
  | nil => intro c x hx; simp [bIssued] at hx
  | cons op ops ih =>
    intro c x hx
    cases op with
    | add tc =>
      rw [bIssued_cons_add] at hx
      rcases List.mem_cons.1 hx with h | h
      · subst h; exact Nat.le_refl _
      · have h1 := ih (c.add tc).2 x h
        rw [bAdd_prog] at h1
        exact Nat.le_of_succ_le h1
    | remove idx =>
      rw [bIssued_cons_remove] at hx
      exact ih (c.remove idx).2 x hx

theorem bIssued_sorted {I : Type} :
    ∀ (ops : List (COp I)) (c : BInMemoryCorpus I),
      (bIssued c ops).Pairwise (fun a b => a.1 < b.1) := by
  intro ops
  induction ops with
  | nil => intro c; simp [bIssued]
  | cons op ops ih =>
    intro c
    cases op with
    | add tc =>
      rw [bIssued_cons_add]
      refine List.Pairwise.cons ?_ (ih (c.add tc).2)
      intro y hy
      have h1 := bIssued_floor ops (c.add tc).2 y hy
      rw [bAdd_prog] at h1
      exact Nat.lt_of_succ_le h1
    | remove idx =>
      rw [bIssued_cons_remove]
      exact ih (c.remove idx).2

theorem bIssued_mem_of_get {I : Type} :
    ∀ (ops : List (COp I)) (c : BInMemoryCorpus I), BWf c →
      ∀ (id : CorpusId) (v : I),
        mapGet (bRun c ops).entries.map id = some v →
        (id, v) ∈ bIssued c ops ∨ mapGet c.entries.map id = some v := by
  intro ops
  induction ops with
  | nil =>
    intro c _ id v h
    exact Or.inr h
  | cons op ops ih =>
    intro c hwf id v h
    cases op with
    | add tc =>
      rw [show bRun c (COp.add tc :: ops) = bRun (c.add tc).2 ops from rfl] at h
      rcases ih (c.add tc).2 (bWf_add c tc hwf) id v h with hmem | hget'
      · rw [bIssued_cons_add]
        exact Or.inl (List.mem_cons_of_mem _ hmem)
      · have habs : mapGet c.entries.map c.entries.progressive_idx = none := by
          rw [mapGet_eq_none_iff]
          intro hmem
          exact absurd (hwf.1 _ hmem) (Nat.lt_irrefl _)
        rw [bAdd_map c tc hwf.1,
          mapGet_append_right_absent _ _ _ _ habs] at hget'
        by_cases hid : id = c.entries.progressive_idx
        · rw [if_pos hid] at hget'
          cases hget'
          rw [bIssued_cons_add, hid]
          exact Or.inl (List.mem_cons_self _ _)
        · rw [if_neg hid] at hget'
          rw [bIssued_cons_add]
          exact Or.inr hget'
    | remove idx =>
      rw [show bRun c (COp.remove idx :: ops) = bRun (c.remove idx).2 ops from rfl] at h
      rcases ih (c.remove idx).2 (bWf_remove c idx hwf) id v h with hmem | hget'
      · rw [bIssued_cons_remove]
        exact Or.inl hmem
      · have : mapGet (mapRemove c.entries.map idx) id = some v := hget'
        rw [mapGet_mapRemove] at this
        by_cases hidx : id = idx
        · rw [if_pos hidx] at this; cases this
        · rw [if_neg hidx] at this
          rw [bIssued_cons_remove]
          exact Or.inr this

/-! ### `first`/`last` of the BTreeMap storage through the key list -/

theorem getLast?_keysOf {α : Type} (m : List (CorpusId × α)) :
    (keysOf m).getLast? = m.getLast?.map Prod.fst := by
  simp [keysOf, List.getLast?_map]

theorem bFirst_eq_keys {I : Type} (s : BTestcaseStorage I) :
    s.first = (keysOf s.map).head? := by
  rw [BTestcaseStorage.first, head?_keysOf]

theorem bLast_eq_keys {I : Type} (s : BTestcaseStorage I) :
    s.last = (keysOf s.map).getLast? := by
  rw [BTestcaseStorage.last, getLast?_keysOf]

/-! ### The claims -/

/-- Claim C8: for both strategies, `next(id)` and `prev(id)` of an
identifier that is not currently a key of the map return nothing — in
particular, for the BTreeMap strategy, an absent identifier lying between
two present keys does not yield the nearest neighbour. -/
theorem c8_next_prev_of_absent_id {I : Type} (c : HInMemoryCorpus I)
    (bc : BInMemoryCorpus I) (idx : CorpusId)
    (h : mapGet c.entries.map idx = none)
    (hb : mapGet bc.entries.map idx = none) :
    c.next idx = none ∧ c.prev idx = none ∧
      bc.next idx = none ∧ bc.prev idx = none := by
  have hbk : idx ∉ keysOf bc.entries.map := (mapGet_eq_none_iff _ _).1 hb
  refine ⟨?_, ?_, ?_, ?_⟩
  · simp [HInMemoryCorpus.next, HTestcaseStorage.next, h]
  · simp [HInMemoryCorpus.prev, HTestcaseStorage.prev, h]
  · rw [show bc.next idx = bc.entries.next idx from rfl, bNext_eq_nextKeys]
    exact nextKeys_not_mem _ _ hbk
  · rw [show bc.prev idx = bc.entries.prev idx from rfl, bPrev_eq_prevKeys]
    exact prevKeys_not_mem _ _ hbk

/-- A concrete HashMap-backed corpus holding identifiers 0 and 2 (1 was
never issued), for exercising the absent-identifier edge cases. -/
def hGapCorpus : HInMemoryCorpus Nat :=
  { entries :=
      { map := [(0, ⟨5, none, some 2⟩), (2, ⟨7, some 0, none⟩)]
        progressive_idx := 3
        first_idx := some 0
        last_idx := some 2 }
    current := none }

/-- A concrete BTreeMap-backed corpus holding keys 0 and 2, so that the
absent identifier 1 lies strictly between two present keys. -/
def bGapCorpus : BInMemoryCorpus Nat :=
  { entries := { map := [(0, 5), (2, 7)], progressive_idx := 3 }
    current := none }

/-- Witness for C8 at a concrete input: the BTreeMap corpus holds keys 0
and 2, and the absent identifier 1 lies strictly between them; `next`/
`prev` still return nothing. -/
theorem c8_next_prev_of_absent_id_witness :
    hGapCorpus.next 1 = none ∧ hGapCorpus.prev 1 = none ∧
      bGapCorpus.next 1 = none ∧ bGapCorpus.prev 1 = none :=
  c8_next_prev_of_absent_id hGapCorpus bGapCorpus 1 (by decide) (by decide)

/-- Claim C9: the `current` cursor is only changed through `current_mut`:
`add`, `replace` and `remove` leave it untouched — in particular `remove`
does not clear it even when it points at the removed identifier, leaving
the cursor on a no-longer-live entry. -/
theorem c9_cursor_only_via_current_mut {I : Type} (c : HInMemoryCorpus I)
    (bc : BInMemoryCorpus I) (tc : I) (idx : CorpusId) (v : I)
    (w : Option CorpusId) :
    (c.add tc).map (fun r => r.2.current) = (c.add tc).map (fun _ => c.current) ∧
    (c.replace idx v).2.current = c.current ∧
    (c.remove idx).2.current = c.current ∧
    ((c.setCurrent (some idx)).remove idx).2.current = some idx ∧
    ((c.setCurrent (some idx)).remove idx).2.get idx =
      Except.error (Error.keyNotFound idx) ∧
    (c.setCurrent w).current = w ∧
    (bc.add tc).2.current = bc.current ∧
    (bc.replace idx v).2.current = bc.current ∧
    (bc.remove idx).2.current = bc.current ∧
    ((bc.setCurrent (some idx)).remove idx).2.current = some idx ∧
    ((bc.setCurrent (some idx)).remove idx).2.get idx =
      Except.error (Error.keyNotFound idx) ∧
    (bc.setCurrent w).current = w := by
  refine ⟨?_, ?_, rfl, rfl, ?_, rfl, rfl, ?_, rfl, rfl, ?_, rfl⟩
  · cases ha : c.add tc with
    | none => rfl
    | some r =>
      simp only [Option.map_some']
      rw [hAdd_current c tc r ha]
  · simp only [HInMemoryCorpus.replace]
    cases mapGet c.entries.map idx <;> rfl
  · simp only [HInMemoryCorpus.remove, HInMemoryCorpus.get, HInMemoryCorpus.setCurrent]
    rw [mapGet_mapRemove]
    simp
  · simp only [BInMemoryCorpus.replace]
    cases mapGet bc.entries.map idx <;> rfl
  · simp only [BInMemoryCorpus.remove, BInMemoryCorpus.get, BInMemoryCorpus.setCurrent]
    rw [mapGet_mapRemove]
    simp

/-- Claim C10: a freshly constructed corpus is empty in every observable
respect, for both strategies: zero count, no cursor, no first/last, every
lookup fails with `KeyNotFound`, and `next`/`prev` return nothing. -/
theorem c10_new_corpus_empty {I : Type} (idx : CorpusId) :
    (HInMemoryCorpus.new I).count = 0 ∧
    (HInMemoryCorpus.new I).current = none ∧
    (HInMemoryCorpus.new I).first = none ∧
    (HInMemoryCorpus.new I).last = none ∧
    (HInMemoryCorpus.new I).get idx = Except.error (Error.keyNotFound idx) ∧
    (HInMemoryCorpus.new I).next idx = none ∧
    (HInMemoryCorpus.new I).prev idx = none ∧
    (BInMemoryCorpus.new I).count = 0 ∧
    (BInMemoryCorpus.new I).current = none ∧
    (BInMemoryCorpus.new I).first = none ∧
    (BInMemoryCorpus.new I).last = none ∧
    (BInMemoryCorpus.new I).get idx = Except.error (Error.keyNotFound idx) ∧
    (BInMemoryCorpus.new I).next idx = none ∧
    (BInMemoryCorpus.new I).prev idx = none :=
  ⟨rfl, rfl, rfl, rfl, rfl, rfl, rfl, rfl, rfl, rfl, rfl, rfl, rfl, rfl⟩

/-- Claim C6 (evaluation at the failing input): the claim says `add`
never fails, but the HashMap `add` aborts with a panic on a reachable
corpus.  `add 5; remove 0` completes and leaves `last_idx = Some 0` while
identifier 0 is no longer in the map (the container's `remove` does not
refresh the sentinel); the next `add` then hits
`self.map.get_mut(&0).unwrap()` and panics, so the whole run evaluates to
`none`.  The remaining parts of the taxonomy do hold at that corpus:
`get`/`replace` of the dead identifier err with `KeyNotFound` leaving the
corpus unchanged, and `remove` of it is the non-error `Ok(None)`. -/
theorem c6_add_panics_on_stale_tail :
    (hRun (HInMemoryCorpus.new Nat) [COp.add 5, COp.remove 0]).map
        (fun c => c.entries.last_idx) = some (some 0) ∧
    (hRun (HInMemoryCorpus.new Nat) [COp.add 5, COp.remove 0]).map
        (fun c => mapGet c.entries.map 0) = some none ∧
    hRun (HInMemoryCorpus.new Nat) [COp.add 5, COp.remove 0, COp.add 7] = none ∧
    (hRun (HInMemoryCorpus.new Nat) [COp.add 5, COp.remove 0]).map
        (fun c => c.get 0) = some (Except.error (Error.keyNotFound 0)) ∧
    (hRun (HInMemoryCorpus.new Nat) [COp.add 5, COp.remove 0]).map
        (fun c => (c.replace 0 9).1) =
      some (Except.error (Error.keyNotFound 0)) ∧
    (hRun (HInMemoryCorpus.new Nat) [COp.add 5, COp.remove 0]).map
        (fun c => (c.replace 0 9).2) =
      hRun (HInMemoryCorpus.new Nat) [COp.add 5, COp.remove 0] ∧
    (hRun (HInMemoryCorpus.new Nat) [COp.add 5, COp.remove 0]).map
        (fun c => (c.remove 0).1) = some (Except.ok none) ∧
    (bRun (BInMemoryCorpus.new Nat) [COp.add 5, COp.remove 0, COp.add 7]).count
      = 1 := by
  decide

theorem bReplace_map {I : Type} (bc : BInMemoryCorpus I) (idx : CorpusId)
    (v w : I) (hb : mapGet bc.entries.map idx = some w) :
    (bc.replace idx v).2.entries.map =
      mapUpdate bc.entries.map idx (fun _ => v) := by
  simp [BInMemoryCorpus.replace, hb]

theorem bReplace_keys {I : Type} (bc : BInMemoryCorpus I) (idx : CorpusId)
    (v w : I) (hb : mapGet bc.entries.map idx = some w) :
    keysOf (bc.replace idx v).2.entries.map = keysOf bc.entries.map := by
  rw [bReplace_map bc idx v w hb, keysOf_mapUpdate]

/-- Claim C7: on a live identifier, `replace(id, v)` returns the old
payload, makes `get(id)` observe `v`, and leaves `next`, `prev`, `first`,
`last`, `count`, the cursor, and every other entry's payload unchanged.
Both strategies. -/
theorem c7_replace_preserves_position {I : Type} (c : HInMemoryCorpus I)
    (bc : BInMemoryCorpus I) (idx : CorpusId) (v : I)
    (it : TestcaseStorageItem I) (w : I)
    (h : mapGet c.entries.map idx = some it)
    (hb : mapGet bc.entries.map idx = some w) :
    (c.replace idx v).1 = Except.ok it.testcase ∧
    (c.replace idx v).2.get idx = Except.ok v ∧
    (∀ j, (c.replace idx v).2.next j = c.next j) ∧
    (∀ j, (c.replace idx v).2.prev j = c.prev j) ∧
    (c.replace idx v).2.first = c.first ∧
    (c.replace idx v).2.last = c.last ∧
    (c.replace idx v).2.count = c.count ∧
    (c.replace idx v).2.current = c.current ∧
    (∀ j, j ≠ idx → (c.replace idx v).2.get j = c.get j) ∧
    (bc.replace idx v).1 = Except.ok w ∧
    (bc.replace idx v).2.get idx = Except.ok v ∧
    (∀ j, (bc.replace idx v).2.next j = bc.next j) ∧
    (∀ j, (bc.replace idx v).2.prev j = bc.prev j) ∧
    (bc.replace idx v).2.first = bc.first ∧
    (bc.replace idx v).2.last = bc.last ∧
    (bc.replace idx v).2.count = bc.count ∧
    (bc.replace idx v).2.current = bc.current ∧
    (∀ j, j ≠ idx → (bc.replace idx v).2.get j = bc.get j) := by
  have hrepl : c.replace idx v =
      (Except.ok it.testcase,
        { c with entries :=
            { c.entries with
              map := mapUpdate c.entries.map idx
                (fun itm => { itm with testcase := v }) } }) := by
    simp [HInMemoryCorpus.replace, h]
  have hbrepl : bc.replace idx v =
      (Except.ok w,
        { bc with entries :=
            { bc.entries with
              map := mapUpdate bc.entries.map idx (fun _ => v) } }) := by
    simp [BInMemoryCorpus.replace, hb]
  refine ⟨?_, ?_, ?_, ?_, ?_, ?_, ?_, ?_, ?_, ?_, ?_, ?_, ?_, ?_, ?_, ?_, ?_, ?_⟩
  · rw [hrepl]
  · rw [hrepl]
    simp [HInMemoryCorpus.get, mapGet_mapUpdate, h]
  · intro j
    rw [hrepl]
    simp only [HInMemoryCorpus.next, HTestcaseStorage.next, mapGet_mapUpdate]
    by_cases hj : j = idx
    · subst hj; rw [if_pos rfl, h]; rfl
    · rw [if_neg hj]
  · intro j
    rw [hrepl]
    simp only [HInMemoryCorpus.prev, HTestcaseStorage.prev, mapGet_mapUpdate]
    by_cases hj : j = idx
    · subst hj; rw [if_pos rfl, h]; rfl
    · rw [if_neg hj]
  · rw [hrepl]; rfl
  · rw [hrepl]; rfl
  · rw [hrepl]
    simp only [HInMemoryCorpus.count]
    exact length_mapUpdate _ _ _
  · rw [hrepl]
  · intro j hj
    rw [hrepl]
    simp only [HInMemoryCorpus.get, mapGet_mapUpdate, if_neg hj]
  · rw [hbrepl]
  · rw [hbrepl]
    simp [BInMemoryCorpus.get, mapGet_mapUpdate, hb]
  · intro j
    rw [show (bc.replace idx v).2.next j =
        nextKeys (keysOf (bc.replace idx v).2.entries.map) j from
      bNext_eq_nextKeys _ j]
    rw [show bc.next j = nextKeys (keysOf bc.entries.map) j from
      bNext_eq_nextKeys _ j]
    rw [bReplace_keys bc idx v w hb]
  · intro j
    rw [show (bc.replace idx v).2.prev j =
        prevKeys (keysOf (bc.replace idx v).2.entries.map) j from
      bPrev_eq_prevKeys _ j]
    rw [show bc.prev j = prevKeys (keysOf bc.entries.map) j from
      bPrev_eq_prevKeys _ j]
    rw [bReplace_keys bc idx v w hb]
  · rw [show (bc.replace idx v).2.first =
        (keysOf (bc.replace idx v).2.entries.map).head? from
      bFirst_eq_keys _]
    rw [show bc.first = (keysOf bc.entries.map).head? from bFirst_eq_keys _]
    rw [bReplace_keys bc idx v w hb]
  · rw [show (bc.replace idx v).2.last =
        (keysOf (bc.replace idx v).2.entries.map).getLast? from
      bLast_eq_keys _]
    rw [show bc.last = (keysOf bc.entries.map).getLast? from bLast_eq_keys _]
    rw [bReplace_keys bc idx v w hb]
  · have : (bc.replace idx v).2.entries.map.length = bc.entries.map.length := by
      rw [bReplace_map bc idx v w hb]
      exact length_mapUpdate _ _ _
    exact this
  · rw [hbrepl]
  · intro j hj
    rw [hbrepl]
    simp only [BInMemoryCorpus.get, mapGet_mapUpdate, if_neg hj]

/-- The HashMap-backed corpus obtained by `add 5; add 7` from empty
(see `hTwoCorpus_reachable`). -/
def hTwoCorpus : HInMemoryCorpus Nat :=
  { entries :=
      { map := [(0, ⟨5, none, some 1⟩), (1, ⟨7, some 0, none⟩)]
        progressive_idx := 2
        first_idx := some 0
        last_idx := some 1 }
    current := none }

/-- The BTreeMap-backed corpus obtained by `add 5; add 7` from empty. -/
def bTwoCorpus : BInMemoryCorpus Nat :=
  { entries := { map := [(0, 5), (1, 7)], progressive_idx := 2 }
    current := none }

theorem hTwoCorpus_reachable :
    hRun (HInMemoryCorpus.new Nat) [COp.add 5, COp.add 7] = some hTwoCorpus := by
  decide

theorem bTwoCorpus_reachable :
    bRun (BInMemoryCorpus.new Nat) [COp.add 5, COp.add 7] = bTwoCorpus := by
  decide

/-- Witness for C7: replace the payload of live identifier 0 by 99 in the
two-entry corpora obtained by adding payloads 5 then 7. -/
theorem c7_replace_preserves_position_witness :
    (hTwoCorpus.replace 0 99).1 =
      Except.ok (⟨5, none, some 1⟩ : TestcaseStorageItem Nat).testcase ∧
    (hTwoCorpus.replace 0 99).2.get 0 = Except.ok 99 ∧
    (∀ j, (hTwoCorpus.replace 0 99).2.next j = hTwoCorpus.next j) ∧
    (∀ j, (hTwoCorpus.replace 0 99).2.prev j = hTwoCorpus.prev j) ∧
    (hTwoCorpus.replace 0 99).2.first = hTwoCorpus.first ∧
    (hTwoCorpus.replace 0 99).2.last = hTwoCorpus.last ∧
    (hTwoCorpus.replace 0 99).2.count = hTwoCorpus.count ∧
    (hTwoCorpus.replace 0 99).2.current = hTwoCorpus.current ∧
    (∀ j, j ≠ 0 → (hTwoCorpus.replace 0 99).2.get j = hTwoCorpus.get j) ∧
    (bTwoCorpus.replace 0 99).1 = Except.ok 5 ∧
    (bTwoCorpus.replace 0 99).2.get 0 = Except.ok 99 ∧
    (∀ j, (bTwoCorpus.replace 0 99).2.next j = bTwoCorpus.next j) ∧
    (∀ j, (bTwoCorpus.replace 0 99).2.prev j = bTwoCorpus.prev j) ∧
    (bTwoCorpus.replace 0 99).2.first = bTwoCorpus.first ∧
    (bTwoCorpus.replace 0 99).2.last = bTwoCorpus.last ∧
    (bTwoCorpus.replace 0 99).2.count = bTwoCorpus.count ∧
    (bTwoCorpus.replace 0 99).2.current = bTwoCorpus.current ∧
    (∀ j, j ≠ 0 → (bTwoCorpus.replace 0 99).2.get j = bTwoCorpus.get j) :=
  c7_replace_preserves_position hTwoCorpus bTwoCorpus 0 99
    ⟨5, none, some 1⟩ 5 (by decide) (by decide)

/-- Claim C4: along any `add`/`remove` sequence from an empty corpus that
the program completes (the HashMap `add` aborts on a stale tail sentinel,
see C6; the completed runs are exactly those `hRun`/`hSuccRemoves`
evaluate to `some`), `count()` equals the number of `add` calls minus the
number of `remove` calls that returned an entry (stated additively over
`Nat`), and removing an absent identifier leaves `count()` unchanged.
The BTreeMap run is total, so its half carries no completion hypothesis. -/
theorem c4_count_consistency {I : Type} (ops : List (COp I))
    (c' : HInMemoryCorpus I) (m : Nat)
    (c : HInMemoryCorpus I) (bc : BInMemoryCorpus I) (idx jdx : CorpusId)
    (hr : hRun (HInMemoryCorpus.new I) ops = some c')
    (hm : hSuccRemoves (HInMemoryCorpus.new I) ops = some m)
    (h : mapGet c.entries.map idx = none)
    (hb : mapGet bc.entries.map jdx = none) :
    c'.count + m = numAdds ops ∧
    (bRun (BInMemoryCorpus.new I) ops).count
        + bSuccRemoves (BInMemoryCorpus.new I) ops = numAdds ops ∧
    (c.remove idx).2.count = c.count ∧
    (bc.remove jdx).2.count = bc.count := by
  refine ⟨?_, ?_, hCount_remove_absent c idx h, bCount_remove_absent bc jdx hb⟩
  · have h0 := hRun_count ops (HInMemoryCorpus.new I) (hWf_new I) c' m hr hm
    simpa [HInMemoryCorpus.count, HInMemoryCorpus.new, HTestcaseStorage.new] using h0
  · have h0 := bRun_count ops (BInMemoryCorpus.new I) (bWf_new I)
    simpa [BInMemoryCorpus.count, BInMemoryCorpus.new, BTestcaseStorage.new] using h0

/-- Witness for C4: three adds and three removes (one remove of the
never-issued identifier 9, one a repeat of an already-removed identifier)
— a sequence the program completes, with one successful remove — plus
removing the absent identifier 1 from the concrete two-entry corpora. -/
theorem c4_count_consistency_witness :
    (⟨⟨[(1, ⟨6, some 0, some 2⟩), (2, ⟨7, some 1, none⟩)], 3, some 0, some 2⟩,
        none⟩ : HInMemoryCorpus Nat).count + 1
      = numAdds [COp.add 5, COp.add 6, COp.remove 0, COp.remove 0, COp.add 7,
          COp.remove 9] ∧
    (bRun (BInMemoryCorpus.new Nat)
        [COp.add 5, COp.add 6, COp.remove 0, COp.remove 0, COp.add 7, COp.remove 9]).count
      + bSuccRemoves (BInMemoryCorpus.new Nat)
        [COp.add 5, COp.add 6, COp.remove 0, COp.remove 0, COp.add 7, COp.remove 9]
      = numAdds [COp.add 5, COp.add 6, COp.remove 0, COp.remove 0, COp.add 7,
          COp.remove 9] ∧
    (hGapCorpus.remove 1).2.count = hGapCorpus.count ∧
    (bGapCorpus.remove 1).2.count = bGapCorpus.count :=
  c4_count_consistency
    [COp.add 5, COp.add 6, COp.remove 0, COp.remove 0, COp.add 7, COp.remove 9]
    ⟨⟨[(1, ⟨6, some 0, some 2⟩), (2, ⟨7, some 1, none⟩)], 3, some 0, some 2⟩, none⟩
    1 hGapCorpus bGapCorpus 1 1 (by decide) (by decide) (by decide) (by decide)

/-- Claim C5: along any `add`/`remove` sequence from an empty corpus that
the program completes (`hRun`/`hIssued` `some`; see C6 for the panic), the
identifiers handed out by the `add` calls are strictly increasing (hence
pairwise distinct), and any identifier that is live at the end still holds
the payload of the very `add` call that issued it — an identifier never
names a different entry, even after removals.  Both strategies; the
BTreeMap half is total so it needs no completion hypothesis. -/
theorem c5_ids_increasing_never_reused {I : Type} (ops : List (COp I))
    (c' : HInMemoryCorpus I) (issued : List (CorpusId × I))
    (id : CorpusId) (it : TestcaseStorageItem I) (v : I)
    (hr : hRun (HInMemoryCorpus.new I) ops = some c')
    (hi : hIssued (HInMemoryCorpus.new I) ops = some issued)
    (h : mapGet c'.entries.map id = some it)
    (hb : mapGet (bRun (BInMemoryCorpus.new I) ops).entries.map id = some v) :
    issued.Pairwise (fun a b => a.1 < b.1) ∧
    (issued.map Prod.fst).Nodup ∧
    (id, it.testcase) ∈ issued ∧
    (bIssued (BInMemoryCorpus.new I) ops).Pairwise (fun a b => a.1 < b.1) ∧
    ((bIssued (BInMemoryCorpus.new I) ops).map Prod.fst).Nodup ∧
    (id, v) ∈ bIssued (BInMemoryCorpus.new I) ops := by
  refine ⟨hIssued_sorted ops _ issued hi, ?_, ?_, bIssued_sorted ops _, ?_, ?_⟩
  · exact List.pairwise_map.2
      ((hIssued_sorted ops _ issued hi).imp (fun hlt => Nat.ne_of_lt hlt))
  · rcases hIssued_mem_of_get ops _ (hWf_new I) c' issued id it hr hi h with
      hm | ⟨it0, h0, _⟩
    · exact hm
    · exact absurd h0 (by simp [HInMemoryCorpus.new, HTestcaseStorage.new, mapGet_nil])
  · exact List.pairwise_map.2 ((bIssued_sorted ops _).imp (fun hlt => Nat.ne_of_lt hlt))
  · rcases bIssued_mem_of_get ops _ (bWf_new I) id v hb with hm | h0
    · exact hm
    · exact absurd h0 (by simp [BInMemoryCorpus.new, BTestcaseStorage.new, mapGet_nil])

/-- Witness for C5: after `add 5`, `add 7`, `remove 0`, `add 9` — a
sequence the program completes (the tail was never removed) — the live
identifier 1 still holds payload 7 from its own `add`, and the issued
identifiers 0, 1, 2 are strictly increasing. -/
theorem c5_ids_increasing_never_reused_witness :
    ([((0 : CorpusId), (5 : Nat)), (1, 7), (2, 9)] :
        List (CorpusId × Nat)).Pairwise (fun a b => a.1 < b.1) ∧
    (([((0 : CorpusId), (5 : Nat)), (1, 7), (2, 9)] :
        List (CorpusId × Nat)).map Prod.fst).Nodup ∧
    ((1 : CorpusId), (⟨7, some 0, some 2⟩ : TestcaseStorageItem Nat).testcase) ∈
      ([((0 : CorpusId), (5 : Nat)), (1, 7), (2, 9)] : List (CorpusId × Nat)) ∧
    (bIssued (BInMemoryCorpus.new Nat)
        [COp.add 5, COp.add 7, COp.remove 0, COp.add 9]).Pairwise
      (fun a b => a.1 < b.1) ∧
    ((bIssued (BInMemoryCorpus.new Nat)
        [COp.add 5, COp.add 7, COp.remove 0, COp.add 9]).map Prod.fst).Nodup ∧
    ((1 : CorpusId), (7 : Nat)) ∈
      bIssued (BInMemoryCorpus.new Nat)
        [COp.add 5, COp.add 7, COp.remove 0, COp.add 9] :=
  c5_ids_increasing_never_reused
    [COp.add 5, COp.add 7, COp.remove 0, COp.add 9]
    ⟨⟨[(1, ⟨7, some 0, some 2⟩), (2, ⟨9, some 1, none⟩)], 3, some 0, some 2⟩, none⟩
    [(0, 5), (1, 7), (2, 9)] 1 ⟨7, some 0, some 2⟩ 7
    (by decide) (by decide) (by decide) (by decide)

/-- Claim C1 (evaluation at the failing inputs): `InMemoryCorpus::remove`
removes straight from `entries.map` without calling
`TestcaseStorage::remove`, so on the HashMap strategy none of the four
rewiring cases happens.  After removing the head, `first()` still returns
the removed identifier 0 (the claim expects the old second entry, 1) even
though the entry is gone; after removing the tail, `last()` still returns
the removed identifier; after removing an interior entry, the neighbours'
links still name it; after removing the sole entry, `first()`/`last()` are
still set.  By contrast, the (uncalled) storage-level `remove` does rewire
the head case correctly. -/
theorem c1_container_remove_skips_rewiring :
    ((hRun (HInMemoryCorpus.new Nat) [COp.add 10, COp.add 11, COp.remove 0]).map
        (fun c => c.first) = some (some 0) ∧
      (hRun (HInMemoryCorpus.new Nat) [COp.add 10, COp.add 11, COp.remove 0]).map
        (fun c => c.get 0) = some (Except.error (Error.keyNotFound 0)) ∧
      (hRun (HInMemoryCorpus.new Nat) [COp.add 10, COp.add 11, COp.remove 0]).map
        (fun c => c.first) ≠ some (some 1)) ∧
    ((hRun (HInMemoryCorpus.new Nat) [COp.add 10, COp.add 11, COp.remove 1]).map
        (fun c => c.last) = some (some 1) ∧
      (hRun (HInMemoryCorpus.new Nat) [COp.add 10, COp.add 11, COp.remove 1]).map
        (fun c => c.last) ≠ some (some 0)) ∧
    ((hRun (HInMemoryCorpus.new Nat)
          [COp.add 10, COp.add 11, COp.add 12, COp.remove 1]).map
        (fun c => c.next 0) = some (some 1) ∧
      (hRun (HInMemoryCorpus.new Nat)
          [COp.add 10, COp.add 11, COp.add 12, COp.remove 1]).map
        (fun c => c.next 0) ≠ some (some 2) ∧
      (hRun (HInMemoryCorpus.new Nat)
          [COp.add 10, COp.add 11, COp.add 12, COp.remove 1]).map
        (fun c => c.prev 2) = some (some 1) ∧
      (hRun (HInMemoryCorpus.new Nat)
          [COp.add 10, COp.add 11, COp.add 12, COp.remove 1]).map
        (fun c => c.prev 2) ≠ some (some 0)) ∧
    ((hRun (HInMemoryCorpus.new Nat) [COp.add 10, COp.remove 0]).map
        (fun c => c.first) = some (some 0) ∧
      (hRun (HInMemoryCorpus.new Nat) [COp.add 10, COp.remove 0]).map
        (fun c => c.last) = some (some 0)) ∧
    ((hRun (HInMemoryCorpus.new Nat) [COp.add 10, COp.add 11]).map
        (fun c => ((c.entries.remove 0).2.first)) = some (some 1)) := by
  decide

/-- Claim C2 (evaluation at the failing input): after `add`, `add`,
`remove(0)` through the container, traversal of the HashMap-backed corpus
from `first()` by repeated `next()` visits exactly `[0]` — the removed,
no-longer-live identifier — while the set of live identifiers is `[1]`:
the traversal neither visits every live identifier nor only live ones. -/
theorem c2_traversal_broken_after_remove :
    (hRun (HInMemoryCorpus.new Nat) [COp.add 10, COp.add 11, COp.remove 0]).map
        (fun c => hTraverse c c.first 5) = some [0] ∧
    (hRun (HInMemoryCorpus.new Nat) [COp.add 10, COp.add 11, COp.remove 0]).map
        (fun c => keysOf c.entries.map) = some [1] ∧
    ([0] : List CorpusId) ≠ [1] := by
  decide

/-- Claim C3 (evaluation at the failing input): the same operation
sequence `add 10, add 11, remove 0` drives the two strategies apart:
the HashMap-backed corpus answers `first() = some 0` (a stale sentinel to
a removed entry) while the BTreeMap-backed corpus answers
`first() = some 1`; similarly `next(0)` diverges after an interior
removal.  (Both sequences complete: the HashMap `add` only panics after a
tail removal, which these sequences avoid.) -/
theorem c3_strategies_not_equivalent :
    (hRun (HInMemoryCorpus.new Nat) [COp.add 10, COp.add 11, COp.remove 0]).map
        (fun c => c.first) = some (some 0) ∧
    (bRun (BInMemoryCorpus.new Nat) [COp.add 10, COp.add 11, COp.remove 0]).first =
      some 1 ∧
    (some 0 : Option CorpusId) ≠ some 1 ∧
    (hRun (HInMemoryCorpus.new Nat)
        [COp.add 10, COp.add 11, COp.add 12, COp.remove 1]).map
      (fun c => c.next 0) = some (some 1) ∧
    (bRun (BInMemoryCorpus.new Nat)
        [COp.add 10, COp.add 11, COp.add 12, COp.remove 1]).next 0 = some 2 ∧
    (some 1 : Option CorpusId) ≠ some 2 := by
  decide

end InMemory
